import Mathlib

/-!
Verification of the constellation particle-field renderer of this
repository (src/js/script.js, function initializeConstellation).

The JavaScript is shallowly embedded over the rationals: canvas-space
coordinates, velocities and radii are modelled as elements of ℚ.  Calls
into the host environment that return real numbers the program cannot
compute exactly — Math.sin, Math.cos, Math.sqrt, Math.random — are
modelled as explicit parameters of the embedded functions; theorems
constrain them by the properties the host guarantees (sine and cosine
values lie in [-1, 1], Math.random values lie in [0, 1), Math.sqrt
returns the nonnegative square root of its argument).  Drawing calls
have no bearing on the claims and are dropped; the functions below keep
the control flow and arithmetic of the source.
-/

namespace Constellation

/-! ### CONFIG.constellation constants (script.js lines 29-44) -/

/-- CONFIG.constellation.particleDensity. -/
def particleDensity : ℚ := 15000

/-- CONFIG.constellation.particleDensityMobile. -/
def particleDensityMobile : ℚ := 30000

/-- CONFIG.constellation.connectionDistance. -/
def connectionDistance : ℚ := 120

/-- CONFIG.constellation.particleSpeedRange (0.4). -/
def particleSpeedRange : ℚ := 2/5

/-- CONFIG.constellation.particleMinRadius (0.5). -/
def particleMinRadius : ℚ := 1/2

/-- CONFIG.constellation.particleMaxRadius (2.0). -/
def particleMaxRadius : ℚ := 2

/-- CONFIG.constellation.mouseRadius. -/
def mouseRadius : ℚ := 180

/-- CONFIG.constellation.mouseRepelForce (0.08). -/
def mouseRepelForce : ℚ := 2/25

/-- CONFIG.constellation.mouseReturnSpeed (0.02). -/
def mouseReturnSpeed : ℚ := 1/50

/-! ### Data model -/

/-- Pointer state (script.js line 100): coordinates plus active flag. -/
structure Mouse where
  x : ℚ
  y : ℚ
  active : Bool
deriving DecidableEq

/-- One drifting particle (class Particle, script.js lines 120-170).
Field names follow the source. -/
structure Particle where
  x : ℚ
  y : ℚ
  vx : ℚ
  vy : ℚ
  baseVx : ℚ
  baseVy : ℚ
  baseRadius : ℚ
  radius : ℚ
  pulseOffset : ℚ
deriving DecidableEq

instance : Inhabited Particle := ⟨⟨0, 0, 0, 0, 0, 0, 0, 0, 0⟩⟩

/-- Particle.reset (script.js lines 125-136).  The six Math.random()
draws are the parameters r1-r5 and, for the pulse phase, the already
multiplied value off (modelling Math.random() * Math.PI * 2, which is
irrational and hence passed in as a whole). -/
def Particle.reset (W H r1 r2 r3 r4 r5 off : ℚ) : Particle :=
  let vx := r3 * particleSpeedRange - particleSpeedRange / 2
  let vy := r4 * particleSpeedRange - particleSpeedRange / 2
  let baseRadius := r5 * (particleMaxRadius - particleMinRadius) + particleMinRadius
  { x := r1 * W
    y := r2 * H
    vx := vx
    vy := vy
    baseVx := vx
    baseVy := vy
    baseRadius := baseRadius
    radius := baseRadius
    pulseOffset := off }

/-- Boundary clamp for one axis (script.js lines 165-168): position
below 0 is clamped to 0 with the velocity sign forced positive,
position above the bound is clamped to the bound with the velocity sign
forced negative.  Returns (new position, new velocity). -/
def clampAxis (bound pos vel : ℚ) : ℚ × ℚ :=
  if pos < 0 then (0, |vel|)
  else if pos > bound then (bound, -|vel|)
  else (pos, vel)

/-- Relaxation of one velocity component toward its base value
(script.js lines 158-159): v += (base - v) * mouseReturnSpeed. -/
def relaxV (v base : ℚ) : ℚ := v + (base - v) * mouseReturnSpeed

/-- Mouse repel force (script.js lines 145-155).  dist is the value of
Math.sqrt(dx*dx + dy*dy); theorems that depend on it constrain it to be
the exact nonnegative square root.  Returns the velocity after the
conditional repel. -/
def applyMouse (m : Mouse) (dist : ℚ) (p : Particle) : ℚ × ℚ :=
  if m.active then
    let dx := p.x - m.x
    let dy := p.y - m.y
    if dist < mouseRadius ∧ dist > 0 then
      let force := (1 - dist / mouseRadius) * mouseRepelForce
      (p.vx + dx / dist * force, p.vy + dy / dist * force)
    else (p.vx, p.vy)
  else (p.vx, p.vy)

/-- Particle.update (script.js lines 138-169).  s is the value of
Math.sin(frameCount * pulseSpeed + this.pulseOffset); dist is the value
of Math.sqrt for the mouse offset (see applyMouse). -/
def Particle.update (W H s : ℚ) (m : Mouse) (dist : ℚ) (p : Particle) : Particle :=
  let radius := p.baseRadius + s * (2/5)
  let v1 := applyMouse m dist p
  let vx2 := relaxV v1.1 p.baseVx
  let vy2 := relaxV v1.2 p.baseVy
  let xc := clampAxis W (p.x + vx2) vx2
  let yc := clampAxis H (p.y + vy2) vy2
  { p with
      radius := radius
      x := xc.1
      vx := xc.2
      y := yc.1
      vy := yc.2 }

/-- Position bounds of the clamp invariant: 0 ≤ x ≤ W and 0 ≤ y ≤ H. -/
def inBounds (W H : ℚ) (p : Particle) : Prop :=
  0 ≤ p.x ∧ p.x ≤ W ∧ 0 ≤ p.y ∧ p.y ≤ H

/-- Squared distance between current velocity and base velocity of a
particle (the quantity |v - v0|² of the convergence property). -/
def sqVelDist (p : Particle) : ℚ :=
  (p.vx - p.baseVx) ^ 2 + (p.vy - p.baseVy) ^ 2

/-! ### Particle creation and resize -/

/-- getDensity (script.js lines 227-230): the mobile density below the
768px width threshold, the desktop density otherwise.  setCanvasSize
sets canvas.width = window.innerWidth, so the canvas width doubles as
the viewport width read by the threshold test. -/
def getDensity (w : ℚ) : ℚ :=
  if w < 768 then particleDensityMobile else particleDensity

/-- The particle count of createParticles (script.js line 234):
Math.floor(canvas.width * canvas.height / getDensity()). -/
def particleCount (W H : ℚ) : ℤ := ⌊W * H / getDensity W⌋

/-- createParticles (script.js lines 232-238): empty the array, then
push particleCount fresh particles.  The i-th call of new Particle()
is modelled by fresh i, abstracting the ambient randomness. -/
def createParticles (W H : ℚ) (fresh : ℕ → Particle) : List Particle :=
  (List.range (particleCount W H).toNat).map fresh

/-- handleResize (script.js lines 243-246): re-read the surface size
(setCanvasSize) and rebuild the particle list from scratch; the
previous list is discarded. -/
def handleResize (old : List Particle) (W H : ℚ) (fresh : ℕ → Particle) :
    List Particle :=
  createParticles W H fresh

/-! ### Shooting stars -/

/-- One decorative streak (class ShootingStar, script.js lines 173-225). -/
structure ShootingStar where
  x : ℚ
  y : ℚ
  vx : ℚ
  vy : ℚ
  length : ℚ
  life : ℚ
  decay : ℚ
deriving DecidableEq

/-- ShootingStar constructor (script.js lines 174-191).  side, posR,
lenR, decayR model the Math.random() draws; cosA and sinA model
Math.cos(angle) and Math.sin(angle) for the random angle. -/
def ShootingStar.create (W H side posR cosA sinA lenR decayR : ℚ) : ShootingStar :=
  { x := if side < 1/2 then posR * W else -10
    y := if side < 1/2 then -10 else posR * H * (1/2)
    vx := cosA * 12
    vy := sinA * 12
    length := 80 + lenR * 40
    life := 1
    decay := 1/125 + decayR * (1/125) }

/-- ShootingStar.update (script.js lines 193-197). -/
def ShootingStar.update (st : ShootingStar) : ShootingStar :=
  { st with x := st.x + st.vx, y := st.y + st.vy, life := st.life - st.decay }

/-- ShootingStar.isDead (script.js lines 222-224): life exhausted or
out of the canvas bounds plus a 50px margin. -/
def ShootingStar.isDead (W H : ℚ) (st : ShootingStar) : Bool :=
  st.life ≤ 0 || st.x > W + 50 || st.y > H + 50

/-- One frame of the shooting-star bookkeeping in animate (script.js
lines 412-417): dead stars are filtered out of the live set, then every
surviving star is updated (drawing has no effect on the state). -/
def stepShootingStars (W H : ℚ) (stars : List ShootingStar) : List ShootingStar :=
  (stars.filter (fun s => ! s.isDead W H)).map ShootingStar.update

/-! ### Spatial hash and neighbor enumeration (connectParticles,
script.js lines 250-315) -/

/-- maxDistSq (script.js line 252). -/
def maxDistSq : ℚ := connectionDistance * connectionDistance

/-- cellSize (script.js line 253): the grid cell size equals the
connection distance. -/
def cellSize : ℚ := connectionDistance

/-- cols (script.js line 254): Math.ceil(canvas.width / cellSize) + 1. -/
def gridCols (W : ℚ) : ℤ := ⌈W / cellSize⌉ + 1

/-- rows (script.js line 255): Math.ceil(canvas.height / cellSize) + 1. -/
def gridRows (H : ℚ) : ℤ := ⌈H / cellSize⌉ + 1

/-- col (script.js line 261): Math.floor(p.x / cellSize). -/
def colOf (p : Particle) : ℤ := ⌊p.x / cellSize⌋

/-- row (script.js line 262): Math.floor(p.y / cellSize). -/
def rowOf (p : Particle) : ℤ := ⌊p.y / cellSize⌋

/-- key (script.js line 263): row * cols + col. -/
def keyOf (W : ℚ) (p : Particle) : ℤ := rowOf p * gridCols W + colOf p

/-- Indexing into the particles array; out-of-range indices never occur
in the statements below. -/
def pAt (ps : List Particle) (i : ℕ) : Particle := ps.getD i default

/-- The grid bucket of one cell key (script.js lines 258-266).  The
source pushes particle indices in increasing index order, so a bucket
is exactly the ascending list of indices whose particle hashes to the
key. -/
def gridCell (W : ℚ) (ps : List Particle) (key : ℤ) : List ℕ :=
  (List.range ps.length).filter (fun i => decide (keyOf W (pAt ps i) = key))

/-- The distance test of script.js line 303: squared distance strictly
below the squared threshold. -/
def closeB (ps : List Particle) (a b : ℕ) : Bool :=
  decide (((pAt ps a).x - (pAt ps b).x) * ((pAt ps a).x - (pAt ps b).x)
      + ((pAt ps a).y - (pAt ps b).y) * ((pAt ps a).y - (pAt ps b).y) < maxDistSq)

/-- Same-cell enumeration (script.js lines 294-311 with isSameCell
true): for the i-th index the inner loop starts at i + 1, so the head
of the bucket is paired with every later bucket entry, recursively. -/
def sameCellPairs (ps : List Particle) : List ℕ → List (ℕ × ℕ)
  | [] => []
  | a :: rest =>
      (rest.filter (fun b => closeB ps a b)).map (fun b => (a, b))
        ++ sameCellPairs ps rest

/-- Cross-cell enumeration (script.js lines 294-311 with isSameCell
false): every index of the cell bucket against every index of the
neighbor bucket. -/
def crossPairs (ps : List Particle) (A B : List ℕ) : List (ℕ × ℕ) :=
  A.flatMap (fun a => (B.filter (fun b => closeB ps a b)).map (fun b => (a, b)))

/-- Neighbor offsets (script.js lines 279-281): same cell, right,
bottom-left, bottom, bottom-right. -/
def neighborOffsets : List (ℤ × ℤ) := [(0, 0), (0, 1), (1, -1), (1, 0), (1, 1)]

/-- The pairs contributed by one (cell key, neighbor offset) step of
the loop body (script.js lines 283-313).  cellRow and cellCol recover
the cell coordinate from the integer key exactly as the source does
(Math.floor(key / cols) and key % cols; keys are nonnegative, so ediv
and emod agree with the JavaScript operations).  The out-of-range
neighbor check mirrors line 286.  In the same-cell case the neighbor
key nr * cols + nc equals the key itself (ediv/emod recomposition), so
the bucket is looked up once. -/
def segPairs (W H : ℚ) (ps : List Particle) (key : ℤ) (o : ℤ × ℤ) :
    List (ℕ × ℕ) :=
  let cols := gridCols W
  let rows := gridRows H
  let cellRow := key / cols
  let cellCol := key % cols
  let nr := cellRow + o.1
  let nc := cellCol + o.2
  if nr < 0 ∨ rows ≤ nr ∨ nc < 0 ∨ cols ≤ nc then []
  else if o.1 = 0 ∧ o.2 = 0 then sameCellPairs ps (gridCell W ps key)
  else crossPairs ps (gridCell W ps key) (gridCell W ps (nr * cols + nc))

/-- The cell keys the loop of script.js line 272 ranges over.  The
source iterates the occupied keys of the sparse grid object; for
particles inside the canvas every occupied key lies in
[0, rows * cols), and unoccupied keys contribute no pairs, so the
enumeration below ranges over all keys of the grid rectangle. -/
def keyList (W H : ℚ) : List ℤ :=
  (List.range (gridRows H * gridCols W).toNat).map Int.ofNat

/-- The full spatial-hash pair enumeration of connectParticles
(script.js lines 272-314), as the list of ordered index pairs whose
connecting line is drawn. -/
def connectPairs (W H : ℚ) (ps : List Particle) : List (ℕ × ℕ) :=
  (keyList W H).flatMap (fun key =>
    neighborOffsets.flatMap (fun o => segPairs W H ps key o))

/-- The brute-force all-pairs reference enumeration: every unordered
pair i < j within the connection distance, listed once. -/
def brutePairs (ps : List Particle) : List (ℕ × ℕ) :=
  (List.range ps.length).flatMap (fun i =>
    ((List.range ps.length).filter (fun j => decide (i < j) && closeB ps i j)).map
      (fun j => (i, j)))

/-- Order the two indices of a pair ascendingly, to compare enumerated
ordered pairs as unordered pairs. -/
def canonPair (q : ℕ × ℕ) : ℕ × ℕ := if q.1 ≤ q.2 then q else (q.2, q.1)

/-- Line opacity (script.js line 304): 1 - Math.sqrt(distSq) /
connectionDistance; the parameter is the value of Math.sqrt(distSq). -/
def lineAlpha (sqrtDistSq : ℚ) : ℚ := 1 - sqrtDistSq / connectionDistance

/-! ### Helper lemmas -/

lemma clampAxis_range (b q v : ℚ) (hb : 0 ≤ b) :
    0 ≤ (clampAxis b q v).1 ∧ (clampAxis b q v).1 ≤ b := by
  unfold clampAxis
  split_ifs with h1 h2
  · exact ⟨le_refl 0, hb⟩
  · exact ⟨hb, le_refl b⟩
  · exact ⟨le_of_not_lt h1, le_of_not_lt h2⟩

lemma clampAxis_id (b q v : ℚ) (h0 : 0 ≤ q) (hb : q ≤ b) :
    clampAxis b q v = (q, v) := by
  unfold clampAxis
  rw [if_neg (by linarith), if_neg (by linarith)]

lemma applyMouse_of_not_guard (m : Mouse) (dist : ℚ) (p : Particle)
    (h : ¬ (dist < mouseRadius ∧ dist > 0)) :
    applyMouse m dist p = (p.vx, p.vy) := by
  by_cases ha : m.active = true
  · simp only [applyMouse, ha, if_true, if_neg h]
  · have hf : m.active = false := by simpa using ha
    simp [applyMouse, hf]

lemma applyMouse_inactive (m : Mouse) (dist : ℚ) (p : Particle)
    (h : m.active = false) : applyMouse m dist p = (p.vx, p.vy) := by
  unfold applyMouse
  rw [h]
  simp

lemma getDensity_pos (W : ℚ) : 0 < getDensity W := by
  unfold getDensity particleDensity particleDensityMobile
  split_ifs <;> norm_num

lemma createParticles_length (W H : ℚ) (f : ℕ → Particle) :
    (createParticles W H f).length = (particleCount W H).toNat := by
  simp [createParticles]

lemma createParticles_length_eq {W H : ℚ} (f : ℕ → Particle)
    (hW : 0 ≤ W) (hH : 0 ≤ H) :
    ((createParticles W H f).length : ℤ) = ⌊W * H / getDensity W⌋ := by
  rw [createParticles_length]
  have h0 : 0 ≤ particleCount W H := by
    unfold particleCount
    exact Int.floor_nonneg.2
      (div_nonneg (mul_nonneg hW hH) (le_of_lt (getDensity_pos W)))
  rw [Int.toNat_of_nonneg h0]
  rfl

/-! ### Claim theorems -/

/-- C2: after every particle update the position satisfies
0 ≤ x ≤ W and 0 ≤ y ≤ H; on crossing a boundary the position is
clamped to that boundary and the velocity component sign is forced
back inward (nonnegative at the low edge, nonpositive at the high
edge), independently for x and y. -/
theorem particle_position_clamped (W H : ℚ) (hW : 0 ≤ W) (hH : 0 ≤ H) :
    (∀ (s dist : ℚ) (m : Mouse) (p : Particle),
        inBounds W H (Particle.update W H s m dist p)) ∧
    (∀ b q v : ℚ, 0 ≤ b →
        (q < 0 → clampAxis b q v = (0, |v|) ∧ 0 ≤ (clampAxis b q v).2) ∧
        (b < q → clampAxis b q v = (b, -|v|) ∧ (clampAxis b q v).2 ≤ 0)) := by
  constructor
  · intro s dist m p
    simp only [Particle.update, inBounds]
    exact ⟨(clampAxis_range _ _ _ hW).1, (clampAxis_range _ _ _ hW).2,
      (clampAxis_range _ _ _ hH).1, (clampAxis_range _ _ _ hH).2⟩
  · intro b q v hb
    constructor
    · intro hq
      have he : clampAxis b q v = (0, |v|) := by
        unfold clampAxis; rw [if_pos hq]
      exact ⟨he, by rw [he]; exact abs_nonneg v⟩
    · intro hq
      have he : clampAxis b q v = (b, -|v|) := by
        unfold clampAxis; rw [if_neg (by linarith), if_pos hq]
      exact ⟨he, by rw [he]; simpa using abs_nonneg v⟩

/-- C2 witness. -/
theorem particle_position_clamped_witness :
    inBounds 800 600
      (Particle.update 800 600 0 ⟨-1000, -1000, false⟩ 0
        ⟨900, -5, 1, 1, 0, 0, 1, 1, 0⟩) :=
  (particle_position_clamped 800 600 (by norm_num) (by norm_num)).1 0 0
    ⟨-1000, -1000, false⟩ ⟨900, -5, 1, 1, 0, 0, 1, 1, 0⟩

/-- C3 counterexample: a particle drifting at its base velocity into
the left wall has its velocity sign flipped by the boundary clamp, so
|v - v0| jumps from 0 to 1/5 — the distance to the base velocity does
not decrease monotonically from each frame to the next even though the
pointer is inactive. -/
theorem velocity_decay_cex :
    ¬ (sqVelDist
          (Particle.update 100 100 0 ⟨-1000, -1000, false⟩ 0
            ⟨1/20, 50, -1/10, 0, -1/10, 0, 1, 1, 0⟩)
        ≤ sqVelDist (⟨1/20, 50, -1/10, 0, -1/10, 0, 1, 1, 0⟩ : Particle)) := by
  norm_num [Particle.update, applyMouse, relaxV, clampAxis, sqVelDist,
    mouseReturnSpeed]
  positivity

/-- C3 amended: with the pointer inactive, and provided the integrated
position does not cross a boundary this frame (so the clamp leaves the
velocity untouched), the squared distance between velocity and base
velocity contracts by the exact factor (49/50)² = (1 - mouseReturnSpeed)²
per frame, and in particular never increases. -/
theorem velocity_relaxation_contraction (W H s dist : ℚ) (m : Mouse)
    (p : Particle) (hm : m.active = false)
    (hx0 : 0 ≤ p.x + relaxV p.vx p.baseVx)
    (hxW : p.x + relaxV p.vx p.baseVx ≤ W)
    (hy0 : 0 ≤ p.y + relaxV p.vy p.baseVy)
    (hyH : p.y + relaxV p.vy p.baseVy ≤ H) :
    sqVelDist (Particle.update W H s m dist p)
        = (49/50) ^ 2 * sqVelDist p ∧
    sqVelDist (Particle.update W H s m dist p) ≤ sqVelDist p := by
  have happ := applyMouse_inactive m dist p hm
  have heq : sqVelDist (Particle.update W H s m dist p)
      = (49/50) ^ 2 * sqVelDist p := by
    simp only [Particle.update, happ, clampAxis_id _ _ _ hx0 hxW,
      clampAxis_id _ _ _ hy0 hyH, sqVelDist]
    unfold relaxV mouseReturnSpeed
    ring
  refine ⟨heq, ?_⟩
  have hnn : 0 ≤ sqVelDist p := by
    unfold sqVelDist
    positivity
  nlinarith [heq]

/-- C3 amended witness. -/
theorem velocity_relaxation_contraction_witness :
    sqVelDist (Particle.update 100 100 0 ⟨0, 0, false⟩ 0
        ⟨50, 50, 1/10, 0, 0, 0, 1, 1, 0⟩)
      = (49/50) ^ 2 * sqVelDist (⟨50, 50, 1/10, 0, 0, 0, 1, 1, 0⟩ : Particle) ∧
    sqVelDist (Particle.update 100 100 0 ⟨0, 0, false⟩ 0
        ⟨50, 50, 1/10, 0, 0, 0, 1, 1, 0⟩)
      ≤ sqVelDist (⟨50, 50, 1/10, 0, 0, 0, 1, 1, 0⟩ : Particle) :=
  velocity_relaxation_contraction 100 100 0 0 ⟨0, 0, false⟩
    ⟨50, 50, 1/10, 0, 0, 0, 1, 1, 0⟩ rfl
    (by norm_num [relaxV, mouseReturnSpeed])
    (by norm_num [relaxV, mouseReturnSpeed])
    (by norm_num [relaxV, mouseReturnSpeed])
    (by norm_num [relaxV, mouseReturnSpeed])

/-- C4: initialization creates exactly floor(W·H/D) particles for the
density D selected by the width threshold; the count is deterministic
given the dimensions, it is 0 when the area is 0, and an 800×600
surface at density 15000 yields exactly 32 particles. -/
theorem particle_count_formula :
    (∀ (W H : ℚ) (f g : ℕ → Particle),
        (createParticles W H f).length = (createParticles W H g).length) ∧
    (∀ (W H : ℚ) (f : ℕ → Particle), 0 ≤ W → 0 ≤ H →
        ((createParticles W H f).length : ℤ) = ⌊W * H / getDensity W⌋) ∧
    (∀ (W H : ℚ) (f : ℕ → Particle), W * H = 0 →
        createParticles W H f = []) ∧
    (∀ f : ℕ → Particle, (createParticles 800 600 f).length = 32) := by
  refine ⟨?_, ?_, ?_, ?_⟩
  · intro W H f g
    rw [createParticles_length, createParticles_length]
  · intro W H f hW hH
    exact createParticles_length_eq f hW hH
  · intro W H f h
    simp [createParticles, particleCount, h]
  · intro f
    have : particleCount 800 600 = 32 := by
      norm_num [particleCount, getDensity, particleDensity]
    rw [createParticles_length, this]
    rfl

/-- C4 witness. -/
theorem particle_count_formula_witness :
    (createParticles 800 600 (fun _ => default)).length = 32 ∧
    ((createParticles 640 480 (fun _ => default)).length : ℤ)
      = ⌊(640 * 480 : ℚ) / getDensity 640⌋ :=
  ⟨particle_count_formula.2.2.2 (fun _ => default),
    particle_count_formula.2.1 640 480 (fun _ => default) (by norm_num)
      (by norm_num)⟩

/-- C5: a shooting star's life strictly decreases on every update (its
decay is strictly positive by construction), every star surviving a
frame step arose from a live star of the previous frame (a dead star is
filtered out before any further update and is never updated again), and
a dead star never belongs to the filtered live set. -/
theorem shootingStar_lifecycle :
    (∀ st : ShootingStar, 0 < st.decay → st.update.life < st.life) ∧
    (∀ W H side posR cosA sinA lenR decayR : ℚ, 0 ≤ decayR →
        0 < (ShootingStar.create W H side posR cosA sinA lenR decayR).decay) ∧
    (∀ (W H : ℚ) (stars : List ShootingStar) (s : ShootingStar),
        s ∈ stepShootingStars W H stars →
        ∃ t ∈ stars, t.isDead W H = false ∧ s = t.update) ∧
    (∀ (W H : ℚ) (stars : List ShootingStar) (s : ShootingStar),
        s.isDead W H = true →
        s ∉ stars.filter (fun t => ! t.isDead W H)) := by
  refine ⟨?_, ?_, ?_, ?_⟩
  · intro st h
    simp only [ShootingStar.update]
    linarith
  · intro W H side posR cosA sinA lenR decayR h
    simp only [ShootingStar.create]
    linarith
  · intro W H stars s hs
    simp only [stepShootingStars, List.mem_map] at hs
    obtain ⟨t, ht, rfl⟩ := hs
    rw [List.mem_filter] at ht
    exact ⟨t, ht.1, by simpa using ht.2, rfl⟩
  · intro W H stars s hdead hmem
    rw [List.mem_filter] at hmem
    simp [hdead] at hmem

/-- C5 witness. -/
theorem shootingStar_lifecycle_witness :
    (ShootingStar.update ⟨0, 0, 1, 1, 80, 1, 1/100⟩).life
        < (⟨0, 0, 1, 1, 80, 1, 1/100⟩ : ShootingStar).life ∧
    0 < (ShootingStar.create 800 600 0 0 1 1 0 (1/2)).decay :=
  ⟨shootingStar_lifecycle.1 ⟨0, 0, 1, 1, 80, 1, 1/100⟩ (by norm_num),
    shootingStar_lifecycle.2.1 800 600 0 0 1 1 0 (1/2) (by norm_num)⟩

/-- C7 counterexample: resizing the viewport to 400×300 re-reads the
width, and 400 is below the 768 mobile threshold, so getDensity selects
the mobile density 30000 — the recreated particle count is
floor(120000/30000) = 4, not the 8 the claim's example expects. -/
theorem resize_count_cex :
    (handleResize [] 400 300 (fun _ => default)).length = 4 ∧
    (handleResize [] 400 300 (fun _ => default)).length ≠ 8 := by
  have h : (handleResize [] 400 300 (fun _ => default)).length = 4 := by
    have : particleCount 400 300 = 4 := by
      norm_num [particleCount, getDensity, particleDensityMobile]
    simp [handleResize, createParticles, this]
  exact ⟨h, by rw [h]; norm_num⟩

/-- C7 amended: on a debounced resize the surface dimensions are
re-read and the whole particle set is discarded and recreated by the
initialization rule — the result is independent of the pre-resize list
and every post-resize particle is a fresh creation; the post-resize
count is floor(newW·newH/D) for the density D selected by the width
threshold at the new width, so resizing to 400×300 (width below 768,
mobile density 30000) leaves exactly 4 particles. -/
theorem resize_recreates_particles (old₁ old₂ : List Particle) (W H : ℚ)
    (f : ℕ → Particle) (hW : 0 ≤ W) (hH : 0 ≤ H) :
    handleResize old₁ W H f = createParticles W H f ∧
    handleResize old₁ W H f = handleResize old₂ W H f ∧
    ((handleResize old₁ W H f).length : ℤ) = ⌊W * H / getDensity W⌋ ∧
    (handleResize old₁ 400 300 f).length = 4 := by
  refine ⟨rfl, rfl, ?_, ?_⟩
  · exact createParticles_length_eq f hW hH
  · have : particleCount 400 300 = 4 := by
      norm_num [particleCount, getDensity, particleDensityMobile]
    simp [handleResize, createParticles, this]

/-- C7 amended witness. -/
theorem resize_recreates_particles_witness :
    handleResize [] 400 300 (fun _ => default)
        = createParticles 400 300 (fun _ => default) ∧
    handleResize [] 400 300 (fun _ => default)
        = handleResize [default] 400 300 (fun _ => default) ∧
    ((handleResize [] 400 300 (fun _ => default)).length : ℤ)
        = ⌊(400 * 300 : ℚ) / getDensity 400⌋ ∧
    (handleResize [] 400 300 (fun _ => default)).length = 4 :=
  resize_recreates_particles [] [default] 400 300 (fun _ => default)
    (by norm_num) (by norm_num)

/-- C8: the updated radius equals baseRadius plus the bounded
sinusoidal term s·0.4 with |s| ≤ 1, and is strictly positive whenever
baseRadius lies in the configured [minRadius, maxRadius] range — which
Particle.reset guarantees for every random draw in [0, 1). -/
theorem breathing_radius_positive (W H s dist : ℚ) (m : Mouse)
    (p : Particle) (hs1 : -1 ≤ s) (hs2 : s ≤ 1)
    (hb1 : particleMinRadius ≤ p.baseRadius)
    (hb2 : p.baseRadius ≤ particleMaxRadius) :
    (Particle.update W H s m dist p).radius = p.baseRadius + s * (2/5) ∧
    0 < (Particle.update W H s m dist p).radius ∧
    ∀ W' H' r1 r2 r3 r4 r5 off : ℚ, 0 ≤ r5 → r5 < 1 →
      particleMinRadius ≤ (Particle.reset W' H' r1 r2 r3 r4 r5 off).baseRadius ∧
      (Particle.reset W' H' r1 r2 r3 r4 r5 off).baseRadius ≤ particleMaxRadius := by
  have hr : (Particle.update W H s m dist p).radius
      = p.baseRadius + s * (2/5) := by
    simp [Particle.update]
  refine ⟨hr, ?_, ?_⟩
  · rw [hr]
    unfold particleMinRadius at hb1
    nlinarith
  · intro W' H' r1 r2 r3 r4 r5 off h0 h1
    simp only [Particle.reset]
    unfold particleMinRadius particleMaxRadius
    constructor <;> nlinarith

/-- C8 witness. -/
theorem breathing_radius_positive_witness :
    (Particle.update 800 600 (-1) ⟨0, 0, false⟩ 0
        ⟨10, 10, 0, 0, 0, 0, 1/2, 1/2, 0⟩).radius
      = 1/2 + (-1) * (2/5) ∧
    0 < (Particle.update 800 600 (-1) ⟨0, 0, false⟩ 0
        ⟨10, 10, 0, 0, 0, 0, 1/2, 1/2, 0⟩).radius :=
  ⟨(breathing_radius_positive 800 600 (-1) 0 ⟨0, 0, false⟩
      ⟨10, 10, 0, 0, 0, 0, 1/2, 1/2, 0⟩ (by norm_num) (by norm_num)
      (by norm_num [particleMinRadius]) (by norm_num [particleMaxRadius])).1,
    (breathing_radius_positive 800 600 (-1) 0 ⟨0, 0, false⟩
      ⟨10, 10, 0, 0, 0, 0, 1/2, 1/2, 0⟩ (by norm_num) (by norm_num)
      (by norm_num [particleMinRadius]) (by norm_num [particleMaxRadius])).2.1⟩

/-- C10: the repel force fires only under the guard 0 < dist <
mouseRadius, so the outward normalization never divides by zero; a
particle exactly at the pointer position (whose exact square-root
distance is 0) receives no force and its update coincides with the
pointer-inactive update, leaving only the unconditional relaxation. -/
theorem repel_guard_no_force_at_pointer (W H s dist : ℚ) (m : Mouse)
    (p : Particle) (hx : p.x = m.x) (hy : p.y = m.y) (hd : 0 ≤ dist)
    (hsq : dist * dist
        = (p.x - m.x) * (p.x - m.x) + (p.y - m.y) * (p.y - m.y)) :
    Particle.update W H s m dist p
        = Particle.update W H s ⟨m.x, m.y, false⟩ dist p ∧
    ∀ (m' : Mouse) (d : ℚ), ¬ (d < mouseRadius ∧ d > 0) →
      Particle.update W H s m' d p
          = Particle.update W H s ⟨m'.x, m'.y, false⟩ d p := by
  have hgen : ∀ (m' : Mouse) (d : ℚ), ¬ (d < mouseRadius ∧ d > 0) →
      Particle.update W H s m' d p
        = Particle.update W H s ⟨m'.x, m'.y, false⟩ d p := by
    intro m' d hg
    have h1 := applyMouse_of_not_guard m' d p hg
    have h2 : applyMouse ⟨m'.x, m'.y, false⟩ d p = (p.vx, p.vy) :=
      applyMouse_inactive _ d p rfl
    simp only [Particle.update, h1, h2]
  have hdist0 : dist = 0 := by
    have : dist * dist = 0 := by
      rw [hsq, hx, hy]
      ring
    exact (mul_self_eq_zero).1 this
  refine ⟨?_, hgen⟩
  exact hdist0 ▸ hgen m 0 (by norm_num)

/-! ### Spatial-hash lemmas: cells, keys and buckets -/

lemma cellSize_pos : (0 : ℚ) < cellSize := by
  norm_num [cellSize, connectionDistance]

lemma gridCols_pos {W : ℚ} (hW : 0 ≤ W) : 0 < gridCols W := by
  have h1 : (0 : ℚ) ≤ W / cellSize := div_nonneg hW (le_of_lt cellSize_pos)
  have h2 : (0 : ℤ) ≤ ⌈W / cellSize⌉ := Int.ceil_nonneg h1
  unfold gridCols
  omega

lemma gridRows_pos {H : ℚ} (hH : 0 ≤ H) : 0 < gridRows H := by
  have h1 : (0 : ℚ) ≤ H / cellSize := div_nonneg hH (le_of_lt cellSize_pos)
  have h2 : (0 : ℤ) ≤ ⌈H / cellSize⌉ := Int.ceil_nonneg h1
  unfold gridRows
  omega

lemma colOf_nonneg {p : Particle} (h : 0 ≤ p.x) : 0 ≤ colOf p :=
  Int.floor_nonneg.2 (div_nonneg h (le_of_lt cellSize_pos))

lemma rowOf_nonneg {p : Particle} (h : 0 ≤ p.y) : 0 ≤ rowOf p :=
  Int.floor_nonneg.2 (div_nonneg h (le_of_lt cellSize_pos))

lemma colOf_lt {W : ℚ} {p : Particle} (h : p.x ≤ W) : colOf p < gridCols W := by
  have h1 : p.x / cellSize ≤ W / cellSize := by
    gcongr
    exact le_of_lt cellSize_pos
  have h2 : ⌊p.x / cellSize⌋ ≤ ⌊W / cellSize⌋ := Int.floor_le_floor h1
  have h3 := Int.floor_le_ceil (W / cellSize)
  unfold colOf gridCols
  omega

lemma rowOf_lt {H : ℚ} {p : Particle} (h : p.y ≤ H) : rowOf p < gridRows H := by
  have h1 : p.y / cellSize ≤ H / cellSize := by
    gcongr
    exact le_of_lt cellSize_pos
  have h2 : ⌊p.y / cellSize⌋ ≤ ⌊H / cellSize⌋ := Int.floor_le_floor h1
  have h3 := Int.floor_le_ceil (H / cellSize)
  unfold rowOf gridRows
  omega

lemma keyOf_range {W H : ℚ} {p : Particle} (hW : 0 ≤ W)
    (hin : inBounds W H p) :
    0 ≤ keyOf W p ∧ keyOf W p < gridRows H * gridCols W := by
  obtain ⟨hx0, hxW, hy0, hyH⟩ := hin
  have hc0 := colOf_nonneg hx0
  have hcW := colOf_lt hxW
  have hr0 := rowOf_nonneg hy0
  have hrH := rowOf_lt hyH
  have hg := gridCols_pos hW
  constructor
  · have : 0 ≤ rowOf p * gridCols W :=
      mul_nonneg hr0 (le_of_lt hg)
    unfold keyOf
    omega
  · have h1 : (rowOf p + 1) * gridCols W ≤ gridRows H * gridCols W :=
      mul_le_mul_of_nonneg_right (by omega) (le_of_lt hg)
    have h2 : (rowOf p + 1) * gridCols W = rowOf p * gridCols W + gridCols W := by
      ring
    unfold keyOf
    omega

lemma key_decomp_div {r c g : ℤ} (h0 : 0 ≤ c) (hlt : c < g) :
    (r * g + c) / g = r := by
  have hg : g ≠ 0 := by omega
  have h1 : r * g + c = c + r * g := by ring
  rw [h1, Int.add_mul_ediv_right c r hg, Int.ediv_eq_zero_of_lt h0 hlt]
  ring

lemma key_decomp_mod {r c g : ℤ} (h0 : 0 ≤ c) (hlt : c < g) :
    (r * g + c) % g = c := by
  have h1 : r * g + c = c + g * r := by ring
  rw [h1, Int.add_mul_emod_self_left, Int.emod_eq_of_lt h0 hlt]

lemma key_inj {g r c r' c' : ℤ} (hg : 0 < g) (h0 : 0 ≤ c) (hlt : c < g)
    (h0' : 0 ≤ c') (hlt' : c' < g) (he : r * g + c = r' * g + c') :
    r = r' ∧ c = c' := by
  have hc : c = c' := by
    have h1 := key_decomp_mod (r := r) h0 hlt
    have h2 := key_decomp_mod (r := r') h0' hlt'
    rw [← h1, ← h2, he]
  subst hc
  have h3 : r * g = r' * g := by omega
  exact ⟨mul_right_cancel₀ (by omega) h3, rfl⟩

lemma pAt_mem {ps : List Particle} {i : ℕ} (h : i < ps.length) :
    pAt ps i ∈ ps := by
  unfold pAt
  rw [List.getD_eq_getElem ps default h]
  exact List.getElem_mem h

lemma mem_gridCell {W : ℚ} {ps : List Particle} {k : ℤ} {i : ℕ} :
    i ∈ gridCell W ps k ↔ i < ps.length ∧ keyOf W (pAt ps i) = k := by
  simp [gridCell, List.mem_filter]

lemma gridCell_pairwise (W : ℚ) (ps : List Particle) (k : ℤ) :
    (gridCell W ps k).Pairwise (· < ·) :=
  (List.pairwise_lt_range ps.length).filter _

lemma gridCell_nodup (W : ℚ) (ps : List Particle) (k : ℤ) :
    (gridCell W ps k).Nodup :=
  (gridCell_pairwise W ps k).imp ne_of_lt

lemma gridCell_disjoint {W : ℚ} {ps : List Particle} {k k' : ℤ}
    (h : k ≠ k') : (gridCell W ps k).Disjoint (gridCell W ps k') := by
  intro i hi hi'
  rw [mem_gridCell] at hi hi'
  exact h (hi.2 ▸ hi'.2)

/-! ### Spatial-hash lemmas: the distance test -/

lemma closeB_iff {ps : List Particle} {a b : ℕ} :
    closeB ps a b = true
      ↔ ((pAt ps a).x - (pAt ps b).x) * ((pAt ps a).x - (pAt ps b).x)
          + ((pAt ps a).y - (pAt ps b).y) * ((pAt ps a).y - (pAt ps b).y)
        < maxDistSq := by
  unfold closeB
  exact decide_eq_true_iff

lemma closeB_symm (ps : List Particle) (a b : ℕ) :
    closeB ps b a = closeB ps a b := by
  unfold closeB
  rw [decide_eq_decide]
  constructor <;> intro h <;> nlinarith [h]

lemma floor_adj {x y : ℚ} (h : x - y < cellSize) :
    ⌊x / cellSize⌋ ≤ ⌊y / cellSize⌋ + 1 := by
  have hc := cellSize_pos
  have h1 : x / cellSize < y / cellSize + 1 := by
    rw [div_lt_iff hc]
    have h0 : (y / cellSize + 1) * cellSize = y + cellSize := by
      field_simp
    rw [h0]
    linarith
  have h2 : (⌊x / cellSize⌋ : ℚ) ≤ x / cellSize := Int.floor_le _
  have h3 : ((⌊x / cellSize⌋ - 1 : ℤ) : ℚ) ≤ y / cellSize := by
    push_cast
    linarith
  have h4 := Int.le_floor.2 h3
  omega

lemma closeB_adj {ps : List Particle} {a b : ℕ}
    (h : closeB ps a b = true) :
    (rowOf (pAt ps b) ≤ rowOf (pAt ps a) + 1
        ∧ rowOf (pAt ps a) ≤ rowOf (pAt ps b) + 1)
      ∧ colOf (pAt ps b) ≤ colOf (pAt ps a) + 1
        ∧ colOf (pAt ps a) ≤ colOf (pAt ps b) + 1 := by
  rw [closeB_iff] at h
  unfold maxDistSq connectionDistance at h
  have hsx := mul_self_nonneg ((pAt ps a).x - (pAt ps b).x)
  have hsy := mul_self_nonneg ((pAt ps a).y - (pAt ps b).y)
  have hcs : cellSize = 120 := by norm_num [cellSize, connectionDistance]
  have hx1 : (pAt ps a).x - (pAt ps b).x < cellSize := by
    rw [hcs]
    nlinarith
  have hx2 : (pAt ps b).x - (pAt ps a).x < cellSize := by
    rw [hcs]
    nlinarith
  have hy1 : (pAt ps a).y - (pAt ps b).y < cellSize := by
    rw [hcs]
    nlinarith
  have hy2 : (pAt ps b).y - (pAt ps a).y < cellSize := by
    rw [hcs]
    nlinarith
  exact ⟨⟨floor_adj hy2, floor_adj hy1⟩, floor_adj hx2, floor_adj hx1⟩

lemma mem_keyList {W H : ℚ} {k : ℤ} :
    k ∈ keyList W H ↔ 0 ≤ k ∧ k < gridRows H * gridCols W := by
  unfold keyList
  rw [List.mem_map]
  constructor
  · rintro ⟨n, hn, rfl⟩
    rw [List.mem_range] at hn
    exact ⟨Int.natCast_nonneg n, Int.lt_toNat.mp hn⟩
  · intro h
    refine ⟨k.toNat, ?_, Int.toNat_of_nonneg h.1⟩
    rw [List.mem_range, Int.lt_toNat, Int.toNat_of_nonneg h.1]
    exact h.2

/-! ### Spatial-hash lemmas: pair enumeration inside and across cells -/

lemma canonPair_of_le {q : ℕ × ℕ} (h : q.1 ≤ q.2) : canonPair q = q :=
  if_pos h

lemma canonPair_swap {a b : ℕ} (h : a < b) : canonPair (b, a) = (a, b) := by
  unfold canonPair
  rw [if_neg (by omega)]

lemma canonPair_eq_cases {q r : ℕ × ℕ} (h : canonPair q = canonPair r) :
    q = r ∨ (q.1 = r.2 ∧ q.2 = r.1) := by
  rcases q with ⟨qa, qb⟩
  rcases r with ⟨ra, rb⟩
  unfold canonPair at h
  split_ifs at h with h1 h2 h2 <;> simp only [Prod.ext_iff] at h ⊢ <;> omega

lemma mem_sameCellPairs {ps : List Particle} {A : List ℕ}
    (hA : A.Pairwise (· < ·)) {x y : ℕ} :
    (x, y) ∈ sameCellPairs ps A
      ↔ x ∈ A ∧ y ∈ A ∧ x < y ∧ closeB ps x y = true := by
  induction A with
  | nil => simp [sameCellPairs]
  | cons a rest ih =>
    rw [List.pairwise_cons] at hA
    obtain ⟨ha, hrest⟩ := hA
    simp only [sameCellPairs, List.mem_append, List.mem_map, ih hrest,
      List.mem_cons]
    constructor
    · rintro (⟨b, hb, heq⟩ | ⟨hx, hy, hxy, hcl⟩)
      · rw [List.mem_filter] at hb
        obtain ⟨hbr, hcl⟩ := hb
        obtain ⟨rfl, rfl⟩ : a = x ∧ b = y := by
          simpa [Prod.ext_iff] using heq
        exact ⟨Or.inl rfl, Or.inr hbr, ha _ hbr, hcl⟩
      · exact ⟨Or.inr hx, Or.inr hy, hxy, hcl⟩
    · rintro ⟨hx | hx, hy | hy, hxy, hcl⟩
      · subst hx
        subst hy
        omega
      · subst hx
        exact Or.inl ⟨y, List.mem_filter.2 ⟨hy, hcl⟩, rfl⟩
      · subst hy
        exact absurd (ha x hx) (by omega)
      · exact Or.inr ⟨hx, hy, hxy, hcl⟩

lemma sameCellPairs_nodup {ps : List Particle} {A : List ℕ}
    (hA : A.Pairwise (· < ·)) : (sameCellPairs ps A).Nodup := by
  induction A with
  | nil => simp [sameCellPairs]
  | cons a rest ih =>
    rw [List.pairwise_cons] at hA
    obtain ⟨ha, hrest⟩ := hA
    refine List.Nodup.append ?_ (ih hrest) ?_
    · refine List.Nodup.map ?_ ((hrest.imp ne_of_lt).filter _)
      intro u v huv
      simpa using huv
    · intro q hq hq'
      rcases q with ⟨x, y⟩
      obtain ⟨b, _, heq⟩ := List.mem_map.1 hq
      obtain ⟨rfl, rfl⟩ : a = x ∧ b = y := by
        simpa [Prod.ext_iff] using heq
      have hx := ((mem_sameCellPairs hrest).1 hq').1
      exact absurd (ha _ hx) (lt_irrefl a)

lemma sameCellPairs_canon_nodup {ps : List Particle} {A : List ℕ}
    (hA : A.Pairwise (· < ·)) :
    ((sameCellPairs ps A).map canonPair).Nodup := by
  have hmap : (sameCellPairs ps A).map canonPair = sameCellPairs ps A := by
    have : ∀ q ∈ sameCellPairs ps A, canonPair q = q := by
      rintro ⟨x, y⟩ hq
      exact canonPair_of_le (le_of_lt ((mem_sameCellPairs hA).1 hq).2.2.1)
    rw [List.map_congr_left this]
    simp
  rw [hmap]
  exact sameCellPairs_nodup hA

lemma mem_crossPairs {ps : List Particle} {A B : List ℕ} {x y : ℕ} :
    (x, y) ∈ crossPairs ps A B
      ↔ x ∈ A ∧ y ∈ B ∧ closeB ps x y = true := by
  simp only [crossPairs, List.mem_flatMap, List.mem_map, List.mem_filter]
  constructor
  · rintro ⟨a, ha, b, ⟨hb, hcl⟩, heq⟩
    obtain ⟨rfl, rfl⟩ : a = x ∧ b = y := by
      simpa [Prod.ext_iff] using heq
    exact ⟨ha, hb, hcl⟩
  · rintro ⟨hx, hy, hcl⟩
    exact ⟨x, hx, y, ⟨hy, hcl⟩, rfl⟩

lemma crossPairs_nodup {ps : List Particle} {A B : List ℕ}
    (hA : A.Nodup) (hB : B.Nodup) : (crossPairs ps A B).Nodup := by
  unfold crossPairs
  rw [List.nodup_flatMap]
  refine ⟨fun a _ => ?_, ?_⟩
  · refine List.Nodup.map ?_ (hB.filter _)
    intro u v huv
    simpa using huv
  · refine hA.imp ?_
    intro a b hab q hq hq'
    obtain ⟨u, _, hequ⟩ := List.mem_map.1 hq
    obtain ⟨v, _, heqv⟩ := List.mem_map.1 hq'
    rw [← hequ] at heqv
    have h2 : b = a := (Prod.ext_iff.1 heqv).1
    exact hab h2.symm

lemma crossPairs_canon_nodup {ps : List Particle} {A B : List ℕ}
    (hA : A.Nodup) (hB : B.Nodup) (hd : A.Disjoint B) :
    ((crossPairs ps A B).map canonPair).Nodup := by
  refine (crossPairs_nodup hA hB).map_on ?_
  rintro ⟨q1, q2⟩ hq ⟨r1, r2⟩ hr heq
  rw [mem_crossPairs] at hq hr
  rcases canonPair_eq_cases heq with he | he
  · exact he
  · simp only at he
    exfalso
    apply hd hq.1
    rw [he.1]
    exact hr.2.1

/-! ### Spatial-hash lemmas: the per-cell loop body -/

lemma keyCoords {W H : ℚ} {k : ℤ} (hW : 0 ≤ W) (h0 : 0 ≤ k)
    (hk : k < gridRows H * gridCols W) :
    0 ≤ k % gridCols W ∧ k % gridCols W < gridCols W
      ∧ 0 ≤ k / gridCols W ∧ k / gridCols W < gridRows H := by
  have hg := gridCols_pos hW
  have h1 := Int.emod_nonneg k (ne_of_gt hg)
  have h2 := Int.emod_lt_of_pos k hg
  have h3 : 0 ≤ k / gridCols W := Int.ediv_nonneg h0 (le_of_lt hg)
  have h4 : k / gridCols W < gridRows H := by
    by_contra hcon
    push_neg at hcon
    have h5 := Int.ediv_add_emod k (gridCols W)
    have h6 : gridRows H * gridCols W ≤ (k / gridCols W) * gridCols W :=
      mul_le_mul_of_nonneg_right hcon (le_of_lt hg)
    nlinarith
  exact ⟨h1, h2, h3, h4⟩

lemma segPairs_of_ok {W H : ℚ} {ps : List Particle} {k o1 o2 : ℤ}
    (hok : ¬ (k / gridCols W + o1 < 0 ∨ gridRows H ≤ k / gridCols W + o1
        ∨ k % gridCols W + o2 < 0 ∨ gridCols W ≤ k % gridCols W + o2)) :
    segPairs W H ps k (o1, o2)
      = if o1 = 0 ∧ o2 = 0 then sameCellPairs ps (gridCell W ps k)
        else crossPairs ps (gridCell W ps k)
          (gridCell W ps
            ((k / gridCols W + o1) * gridCols W + (k % gridCols W + o2))) := by
  simp only [segPairs]
  rw [if_neg hok]

lemma segPairs_of_bad {W H : ℚ} {ps : List Particle} {k o1 o2 : ℤ}
    (hbad : k / gridCols W + o1 < 0 ∨ gridRows H ≤ k / gridCols W + o1
        ∨ k % gridCols W + o2 < 0 ∨ gridCols W ≤ k % gridCols W + o2) :
    segPairs W H ps k (o1, o2) = [] := by
  simp only [segPairs]
  rw [if_pos hbad]

lemma keyOf_div {W : ℚ} {p : Particle} (h0 : 0 ≤ p.x) (hW : p.x ≤ W) :
    keyOf W p / gridCols W = rowOf p := by
  unfold keyOf
  exact key_decomp_div (colOf_nonneg h0) (colOf_lt hW)

lemma keyOf_mod {W : ℚ} {p : Particle} (h0 : 0 ≤ p.x) (hW : p.x ≤ W) :
    keyOf W p % gridCols W = colOf p := by
  unfold keyOf
  exact key_decomp_mod (colOf_nonneg h0) (colOf_lt hW)

lemma seg_same_mem {W H : ℚ} {ps : List Particle} {a b : ℕ}
    (hin : ∀ p ∈ ps, inBounds W H p)
    (ha : a < ps.length) (hb : b < ps.length) (hab : a < b)
    (hkey : keyOf W (pAt ps a) = keyOf W (pAt ps b))
    (hcl : closeB ps a b = true) :
    (a, b) ∈ segPairs W H ps (keyOf W (pAt ps a)) (0, 0) := by
  obtain ⟨hx0, hxW, hy0, hyH⟩ := hin _ (pAt_mem ha)
  have hdiv := keyOf_div hx0 hxW
  have hmod := keyOf_mod hx0 hxW
  have hok : ¬ (keyOf W (pAt ps a) / gridCols W + 0 < 0
      ∨ gridRows H ≤ keyOf W (pAt ps a) / gridCols W + 0
      ∨ keyOf W (pAt ps a) % gridCols W + 0 < 0
      ∨ gridCols W ≤ keyOf W (pAt ps a) % gridCols W + 0) := by
    rw [hdiv, hmod]
    have h1 := rowOf_nonneg hy0
    have h2 := rowOf_lt hyH
    have h3 := colOf_nonneg hx0
    have h4 := colOf_lt hxW
    omega
  rw [segPairs_of_ok hok, if_pos ⟨rfl, rfl⟩]
  exact (mem_sameCellPairs (gridCell_pairwise W ps _)).2
    ⟨mem_gridCell.2 ⟨ha, rfl⟩, mem_gridCell.2 ⟨hb, hkey.symm⟩, hab, hcl⟩

lemma seg_cross_mem {W H : ℚ} {ps : List Particle} {u v : ℕ} {o1 o2 : ℤ}
    (hin : ∀ p ∈ ps, inBounds W H p)
    (hu : u < ps.length) (hv : v < ps.length)
    (ho : ¬ (o1 = 0 ∧ o2 = 0))
    (hrow : rowOf (pAt ps v) = rowOf (pAt ps u) + o1)
    (hcol : colOf (pAt ps v) = colOf (pAt ps u) + o2)
    (hcl : closeB ps u v = true) :
    (u, v) ∈ segPairs W H ps (keyOf W (pAt ps u)) (o1, o2) := by
  obtain ⟨hx0, hxW, hy0, hyH⟩ := hin _ (pAt_mem hu)
  obtain ⟨hx0v, hxWv, hy0v, hyHv⟩ := hin _ (pAt_mem hv)
  have hdiv := keyOf_div hx0 hxW
  have hmod := keyOf_mod hx0 hxW
  have hok : ¬ (keyOf W (pAt ps u) / gridCols W + o1 < 0
      ∨ gridRows H ≤ keyOf W (pAt ps u) / gridCols W + o1
      ∨ keyOf W (pAt ps u) % gridCols W + o2 < 0
      ∨ gridCols W ≤ keyOf W (pAt ps u) % gridCols W + o2) := by
    rw [hdiv, hmod, ← hrow, ← hcol]
    have h1 := rowOf_nonneg hy0v
    have h2 := rowOf_lt hyHv
    have h3 := colOf_nonneg hx0v
    have h4 := colOf_lt hxWv
    omega
  rw [segPairs_of_ok hok, if_neg ho]
  refine mem_crossPairs.2 ⟨mem_gridCell.2 ⟨hu, rfl⟩, mem_gridCell.2 ⟨hv, ?_⟩, hcl⟩
  rw [hdiv, hmod, ← hrow, ← hcol]
  rfl

lemma connect_complete {W H : ℚ} {ps : List Particle}
    (hW : 0 ≤ W) (hH : 0 ≤ H) (hin : ∀ p ∈ ps, inBounds W H p)
    {a b : ℕ} (hab : a < b) (hb : b < ps.length)
    (hcl : closeB ps a b = true) :
    ∃ q ∈ connectPairs W H ps, canonPair q = (a, b) := by
  have ha : a < ps.length := lt_trans hab hb
  obtain ⟨⟨hr1, hr2⟩, hc1, hc2⟩ := closeB_adj hcl
  have hmem : ∀ (u : ℕ) (o : ℤ × ℤ), u < ps.length → o ∈ neighborOffsets →
      ∀ q : ℕ × ℕ, q ∈ segPairs W H ps (keyOf W (pAt ps u)) o →
      q ∈ connectPairs W H ps := by
    intro u o hu ho q hq
    unfold connectPairs
    rw [List.mem_flatMap]
    refine ⟨keyOf W (pAt ps u),
      mem_keyList.2 (keyOf_range hW (hin _ (pAt_mem hu))), ?_⟩
    rw [List.mem_flatMap]
    exact ⟨o, ho, hq⟩
  have fwd : ∀ o1 o2 : ℤ, (o1, o2) ∈ neighborOffsets → ¬ (o1 = 0 ∧ o2 = 0) →
      rowOf (pAt ps b) = rowOf (pAt ps a) + o1 →
      colOf (pAt ps b) = colOf (pAt ps a) + o2 →
      ∃ q ∈ connectPairs W H ps, canonPair q = (a, b) := by
    intro o1 o2 ho ho0 hr hc
    exact ⟨(a, b), hmem a (o1, o2) ha ho _
      (seg_cross_mem hin ha hb ho0 hr hc hcl), canonPair_of_le (le_of_lt hab)⟩
  have bwd : ∀ o1 o2 : ℤ, (o1, o2) ∈ neighborOffsets → ¬ (o1 = 0 ∧ o2 = 0) →
      rowOf (pAt ps a) = rowOf (pAt ps b) + o1 →
      colOf (pAt ps a) = colOf (pAt ps b) + o2 →
      ∃ q ∈ connectPairs W H ps, canonPair q = (a, b) := by
    intro o1 o2 ho ho0 hr hc
    have hcl' : closeB ps b a = true := by
      rw [closeB_symm]
      exact hcl
    exact ⟨(b, a), hmem b (o1, o2) hb ho _
      (seg_cross_mem hin hb ha ho0 hr hc hcl'), canonPair_swap hab⟩
  rcases (show rowOf (pAt ps b) = rowOf (pAt ps a)
      ∨ rowOf (pAt ps b) = rowOf (pAt ps a) + 1
      ∨ rowOf (pAt ps a) = rowOf (pAt ps b) + 1 by omega) with h | h | h
  · rcases (show colOf (pAt ps b) = colOf (pAt ps a)
        ∨ colOf (pAt ps b) = colOf (pAt ps a) + 1
        ∨ colOf (pAt ps a) = colOf (pAt ps b) + 1 by omega) with g | g | g
    · have hkey : keyOf W (pAt ps a) = keyOf W (pAt ps b) := by
        unfold keyOf
        rw [h, g]
      exact ⟨(a, b), hmem a (0, 0) ha (by simp [neighborOffsets]) _
        (seg_same_mem hin ha hb hab hkey hcl), canonPair_of_le (le_of_lt hab)⟩
    · exact fwd 0 1 (by simp [neighborOffsets]) (by norm_num) (by omega) g
    · exact bwd 0 1 (by simp [neighborOffsets]) (by norm_num) (by omega) g
  · rcases (show colOf (pAt ps b) = colOf (pAt ps a) - 1
        ∨ colOf (pAt ps b) = colOf (pAt ps a)
        ∨ colOf (pAt ps b) = colOf (pAt ps a) + 1 by omega) with g | g | g
    · exact fwd 1 (-1) (by simp [neighborOffsets]) (by norm_num) h (by omega)
    · exact fwd 1 0 (by simp [neighborOffsets]) (by norm_num) h (by omega)
    · exact fwd 1 1 (by simp [neighborOffsets]) (by norm_num) h g
  · rcases (show colOf (pAt ps a) = colOf (pAt ps b) - 1
        ∨ colOf (pAt ps a) = colOf (pAt ps b)
        ∨ colOf (pAt ps a) = colOf (pAt ps b) + 1 by omega) with g | g | g
    · exact bwd 1 (-1) (by simp [neighborOffsets]) (by norm_num) h (by omega)
    · exact bwd 1 0 (by simp [neighborOffsets]) (by norm_num) h (by omega)
    · exact bwd 1 1 (by simp [neighborOffsets]) (by norm_num) h g

lemma mem_segPairs_cases {W H : ℚ} {ps : List Particle} {k o1 o2 : ℤ}
    {x y : ℕ} (h : (x, y) ∈ segPairs W H ps k (o1, o2)) :
    closeB ps x y = true ∧ x ∈ gridCell W ps k ∧
      ((o1 = 0 ∧ o2 = 0 ∧ x < y ∧ y ∈ gridCell W ps k) ∨
        (¬ (o1 = 0 ∧ o2 = 0)
          ∧ 0 ≤ k / gridCols W + o1 ∧ k / gridCols W + o1 < gridRows H
          ∧ 0 ≤ k % gridCols W + o2 ∧ k % gridCols W + o2 < gridCols W
          ∧ y ∈ gridCell W ps
              ((k / gridCols W + o1) * gridCols W + (k % gridCols W + o2)))) := by
  by_cases hbad : (k / gridCols W + o1 < 0 ∨ gridRows H ≤ k / gridCols W + o1
      ∨ k % gridCols W + o2 < 0 ∨ gridCols W ≤ k % gridCols W + o2)
  · rw [segPairs_of_bad hbad] at h
    simp at h
  · rw [segPairs_of_ok hbad] at h
    push_neg at hbad
    obtain ⟨hb1, hb2, hb3, hb4⟩ := hbad
    by_cases ho : o1 = 0 ∧ o2 = 0
    · rw [if_pos ho] at h
      obtain ⟨hx, hy, hxy, hcl⟩ :=
        (mem_sameCellPairs (gridCell_pairwise W ps k)).1 h
      exact ⟨hcl, hx, Or.inl ⟨ho.1, ho.2, hxy, hy⟩⟩
    · rw [if_neg ho] at h
      obtain ⟨hx, hy, hcl⟩ := mem_crossPairs.1 h
      exact ⟨hcl, hx, Or.inr ⟨ho, hb1, hb2, hb3, hb4, hy⟩⟩

lemma nbrKey_ne {W : ℚ} (hW : 0 ≤ W) {k o1 o2 : ℤ}
    (h2 : 0 ≤ k % gridCols W + o2) (h4 : k % gridCols W + o2 < gridCols W)
    (ho : ¬ (o1 = 0 ∧ o2 = 0)) :
    (k / gridCols W + o1) * gridCols W + (k % gridCols W + o2) ≠ k := by
  intro he
  have hg := gridCols_pos hW
  have hd := Int.ediv_add_emod k (gridCols W)
  have hcomm : (k / gridCols W) * gridCols W = gridCols W * (k / gridCols W) :=
    mul_comm _ _
  have he2 : (k / gridCols W + o1) * gridCols W + (k % gridCols W + o2)
      = (k / gridCols W) * gridCols W + (k % gridCols W) := by
    rw [he]
    linarith
  have hsplit := key_inj hg h2 h4 (Int.emod_nonneg k (ne_of_gt hg))
    (Int.emod_lt_of_pos k hg) he2
  omega

lemma connect_sound {W H : ℚ} {ps : List Particle} (hW : 0 ≤ W)
    {q : ℕ × ℕ} (hq : q ∈ connectPairs W H ps) :
    ∃ x y : ℕ, q = (x, y) ∧ x ≠ y ∧ x < ps.length ∧ y < ps.length
      ∧ closeB ps x y = true := by
  unfold connectPairs at hq
  rw [List.mem_flatMap] at hq
  obtain ⟨k, _, hq⟩ := hq
  rw [List.mem_flatMap] at hq
  obtain ⟨⟨o1, o2⟩, _, hq⟩ := hq
  rcases q with ⟨x, y⟩
  obtain ⟨hcl, hx, hrest⟩ := mem_segPairs_cases hq
  have hxlen := (mem_gridCell.1 hx).1
  have hxkey := (mem_gridCell.1 hx).2
  rcases hrest with ⟨_, _, hxy, hy⟩ | ⟨ho, _, _, hb3, hb4, hy⟩
  · exact ⟨x, y, rfl, ne_of_lt hxy, hxlen, (mem_gridCell.1 hy).1, hcl⟩
  · refine ⟨x, y, rfl, ?_, hxlen, (mem_gridCell.1 hy).1, hcl⟩
    intro hxyeq
    have hykey := (mem_gridCell.1 hy).2
    rw [← hxyeq, hxkey] at hykey
    exact nbrKey_ne hW hb3 hb4 ho hykey.symm

lemma offsets_no_neg {o1 o2 o1' o2' : ℤ}
    (h : (o1, o2) ∈ neighborOffsets) (h' : (o1', o2') ∈ neighborOffsets)
    (hn1 : o1' = -o1) (hn2 : o2' = -o2) : o1 = 0 ∧ o2 = 0 := by
  simp only [neighborOffsets, List.mem_cons, List.not_mem_nil, or_false,
    Prod.mk.injEq] at h h'
  omega

lemma eq_nbr_decomp {W : ℚ} {k k' o1 o2 : ℤ}
    (h3 : 0 ≤ k % gridCols W + o2) (h4 : k % gridCols W + o2 < gridCols W)
    (he : (k / gridCols W + o1) * gridCols W + (k % gridCols W + o2) = k') :
    k' / gridCols W = k / gridCols W + o1
      ∧ k' % gridCols W = k % gridCols W + o2 := by
  constructor
  · rw [← he]
    exact key_decomp_div h3 h4
  · rw [← he]
    exact key_decomp_mod h3 h4

lemma seg_canon_disjoint {W H : ℚ} {ps : List Particle} (hW : 0 ≤ W)
    {k1 k2 o11 o12 o21 o22 : ℤ}
    (ho1 : (o11, o12) ∈ neighborOffsets) (ho2 : (o21, o22) ∈ neighborOffsets)
    (hne : ¬ (k1 = k2 ∧ o11 = o21 ∧ o12 = o22)) (q : ℕ × ℕ)
    (hq1 : q ∈ (segPairs W H ps k1 (o11, o12)).map canonPair)
    (hq2 : q ∈ (segPairs W H ps k2 (o21, o22)).map canonPair) : False := by
  obtain ⟨⟨x1, y1⟩, hm1, hc1⟩ := List.mem_map.1 hq1
  obtain ⟨⟨x2, y2⟩, hm2, hc2⟩ := List.mem_map.1 hq2
  obtain ⟨hcl1, hx1, hr1⟩ := mem_segPairs_cases hm1
  obtain ⟨hcl2, hx2, hr2⟩ := mem_segPairs_cases hm2
  have hkx1 : keyOf W (pAt ps x1) = k1 := (mem_gridCell.1 hx1).2
  have hkx2 : keyOf W (pAt ps x2) = k2 := (mem_gridCell.1 hx2).2
  have hcan : canonPair (x1, y1) = canonPair (x2, y2) := by rw [hc1, hc2]
  rcases canonPair_eq_cases hcan with he | he
  · have hx12 : x1 = x2 := (Prod.ext_iff.1 he).1
    have hy12 : y1 = y2 := (Prod.ext_iff.1 he).2
    have hk12 : k1 = k2 := by rw [← hkx1, ← hkx2, hx12]
    rcases hr1 with ⟨hz11, hz12, hlt1, hy1⟩ | ⟨hnz1, hb11, hb12, hb13, hb14, hy1⟩
    · rcases hr2 with ⟨hz21, hz22, hlt2, hy2⟩ | ⟨hnz2, hb21, hb22, hb23, hb24, hy2⟩
      · exact hne ⟨hk12, by omega, by omega⟩
      · have h1 : keyOf W (pAt ps y1) = k1 := (mem_gridCell.1 hy1).2
        have h2 := (mem_gridCell.1 (hy12 ▸ hy2)).2
        exact nbrKey_ne hW hb23 hb24 hnz2 (by rw [← h2, h1, hk12])
    · rcases hr2 with ⟨hz21, hz22, hlt2, hy2⟩ | ⟨hnz2, hb21, hb22, hb23, hb24, hy2⟩
      · have h1 : keyOf W (pAt ps y2) = k2 := (mem_gridCell.1 hy2).2
        have h2 := (mem_gridCell.1 (hy12 ▸ hy1 : y2 ∈ _)).2
        exact nbrKey_ne hW hb13 hb14 hnz1 (by rw [← h2, h1, hk12])
      · have h1 := (mem_gridCell.1 hy1).2
        have h2 := (mem_gridCell.1 (hy12 ▸ hy2 : y1 ∈ _)).2
        have hnn : (k1 / gridCols W + o11) * gridCols W
              + (k1 % gridCols W + o12)
            = (k2 / gridCols W + o21) * gridCols W
              + (k2 % gridCols W + o22) := by
          rw [← h1, ← h2]
        have hsplit := key_inj (gridCols_pos hW) hb13 hb14 hb23 hb24 hnn
        rw [hk12] at hsplit
        exact hne ⟨hk12, by omega, by omega⟩
  · have hxy2 : x1 = y2 := he.1
    have hyx2 : y1 = x2 := he.2
    rcases hr1 with ⟨hz11, hz12, hlt1, hy1⟩ | ⟨hnz1, hb11, hb12, hb13, hb14, hy1⟩
    · rcases hr2 with ⟨hz21, hz22, hlt2, hy2⟩ | ⟨hnz2, hb21, hb22, hb23, hb24, hy2⟩
      · omega
      · have h1 : keyOf W (pAt ps y1) = k1 := (mem_gridCell.1 hy1).2
        have hk12 : k2 = k1 := by rw [← hkx2, ← hyx2, h1]
        have h2 := (mem_gridCell.1 hy2).2
        have hx1k : keyOf W (pAt ps x1) = k2 := by rw [hkx1, hk12]
        exact nbrKey_ne hW hb23 hb24 hnz2 (by rw [← h2, ← hxy2, hx1k])
    · rcases hr2 with ⟨hz21, hz22, hlt2, hy2⟩ | ⟨hnz2, hb21, hb22, hb23, hb24, hy2⟩
      · have h2 : keyOf W (pAt ps y2) = k2 := (mem_gridCell.1 hy2).2
        have hk12 : k1 = k2 := by rw [← hkx1, hxy2, h2]
        have h1 := (mem_gridCell.1 hy1).2
        have hx2k : keyOf W (pAt ps x2) = k1 := by rw [hkx2, hk12]
        exact nbrKey_ne hW hb13 hb14 hnz1 (by rw [← h1, hyx2, hx2k])
      · have h1 := (mem_gridCell.1 hy1).2
        have h2 := (mem_gridCell.1 hy2).2
        have hn1 : (k1 / gridCols W + o11) * gridCols W
            + (k1 % gridCols W + o12) = k2 := by
          rw [← hkx2, ← hyx2, h1]
        have hn2 : (k2 / gridCols W + o21) * gridCols W
            + (k2 % gridCols W + o22) = k1 := by
          rw [← hkx1, hxy2, h2]
        have d1 := eq_nbr_decomp hb13 hb14 hn1
        have d2 := eq_nbr_decomp hb23 hb24 hn2
        have hneg := offsets_no_neg ho1 ho2 (by omega) (by omega)
        exact hnz1 hneg

lemma keyList_nodup (W H : ℚ) : (keyList W H).Nodup := by
  refine List.Nodup.map ?_ (List.nodup_range _)
  intro a b hab
  exact Int.ofNat.inj hab

lemma segPairs_canon_nodup {W H : ℚ} {ps : List Particle} (hW : 0 ≤ W)
    (k o1 o2 : ℤ) :
    ((segPairs W H ps k (o1, o2)).map canonPair).Nodup := by
  by_cases hbad : (k / gridCols W + o1 < 0 ∨ gridRows H ≤ k / gridCols W + o1
      ∨ k % gridCols W + o2 < 0 ∨ gridCols W ≤ k % gridCols W + o2)
  · rw [segPairs_of_bad hbad]
    simp
  · rw [segPairs_of_ok hbad]
    push_neg at hbad
    obtain ⟨hb1, hb2, hb3, hb4⟩ := hbad
    by_cases ho : o1 = 0 ∧ o2 = 0
    · rw [if_pos ho]
      exact sameCellPairs_canon_nodup (gridCell_pairwise W ps k)
    · rw [if_neg ho]
      refine crossPairs_canon_nodup (gridCell_nodup W ps k)
        (gridCell_nodup W ps _) ?_
      exact gridCell_disjoint (fun hk => nbrKey_ne hW hb3 hb4 ho hk.symm)

lemma connect_canon_nodup {W H : ℚ} {ps : List Particle} (hW : 0 ≤ W) :
    ((connectPairs W H ps).map canonPair).Nodup := by
  unfold connectPairs
  rw [List.map_flatMap, List.nodup_flatMap]
  constructor
  · intro k hk
    rw [List.map_flatMap, List.nodup_flatMap]
    constructor
    · rintro ⟨o1, o2⟩ ho
      exact segPairs_canon_nodup hW k o1 o2
    · have hoffsets : neighborOffsets.Nodup := by decide
      refine List.Pairwise.imp_of_mem ?_ hoffsets
      rintro ⟨o11, o12⟩ ⟨o21, o22⟩ ho1 ho2 hone q hq1 hq2
      exact seg_canon_disjoint hW ho1 ho2
        (fun hc => hone (Prod.ext hc.2.1 hc.2.2)) q hq1 hq2
  · refine List.Pairwise.imp_of_mem ?_
      ((keyList_nodup W H).imp (fun h => h))
    intro k1 k2 hk1 hk2 hkne q hq1 hq2
    simp only [List.map_flatMap, List.mem_flatMap] at hq1 hq2
    obtain ⟨⟨o11, o12⟩, ho1, hq1⟩ := hq1
    obtain ⟨⟨o21, o22⟩, ho2, hq2⟩ := hq2
    exact seg_canon_disjoint hW ho1 ho2 (fun hc => hkne hc.1) q hq1 hq2

lemma mem_brutePairs {ps : List Particle} {x y : ℕ} :
    (x, y) ∈ brutePairs ps
      ↔ x < y ∧ y < ps.length ∧ closeB ps x y = true := by
  simp only [brutePairs, List.mem_flatMap, List.mem_map, List.mem_filter,
    List.mem_range]
  constructor
  · rintro ⟨i, hi, j, ⟨hj, hcond⟩, heq⟩
    obtain ⟨rfl, rfl⟩ : i = x ∧ j = y := by
      simpa [Prod.ext_iff] using heq
    rw [Bool.and_eq_true, decide_eq_true_iff] at hcond
    exact ⟨hcond.1, hj, hcond.2⟩
  · rintro ⟨hxy, hy, hcl⟩
    refine ⟨x, lt_trans hxy hy, y, ⟨hy, ?_⟩, rfl⟩
    rw [Bool.and_eq_true, decide_eq_true_iff]
    exact ⟨hxy, hcl⟩

lemma brutePairs_nodup (ps : List Particle) : (brutePairs ps).Nodup := by
  unfold brutePairs
  rw [List.nodup_flatMap]
  refine ⟨fun i _ => ?_, ?_⟩
  · refine List.Nodup.map ?_ ((List.nodup_range _).filter _)
    intro u v huv
    simpa using huv
  · refine List.Pairwise.imp ?_ (List.pairwise_lt_range _)
    intro a b hab q hq hq'
    obtain ⟨u, _, hequ⟩ := List.mem_map.1 hq
    obtain ⟨v, _, heqv⟩ := List.mem_map.1 hq'
    rw [← hequ] at heqv
    exact absurd (Prod.ext_iff.1 heqv).1 (by omega)

/-- C1: for in-bounds particle positions, the spatial-hash neighbor
enumeration of connectParticles (cell size = connection distance, each
cell checked against itself and its right, bottom-left, bottom and
bottom-right neighbors) yields, as unordered pairs, a permutation of
the brute-force all-pairs enumeration of pairs within the connection
distance — the same pairs, each exactly once (the brute-force list is
duplicate-free, hence so is the hash enumeration). -/
theorem spatialHash_equiv_bruteforce (W H : ℚ) (ps : List Particle)
    (hW : 0 ≤ W) (hH : 0 ≤ H) (hin : ∀ p ∈ ps, inBounds W H p) :
    ((connectPairs W H ps).map canonPair).Perm (brutePairs ps)
      ∧ (brutePairs ps).Nodup := by
  refine ⟨?_, brutePairs_nodup ps⟩
  rw [List.perm_ext_iff_of_nodup (connect_canon_nodup hW) (brutePairs_nodup ps)]
  rintro ⟨x, y⟩
  constructor
  · intro hq
    obtain ⟨q', hq', hcan⟩ := List.mem_map.1 hq
    obtain ⟨u, v, rfl, huv, hu, hv, hcl⟩ := connect_sound hW hq'
    rcases lt_or_gt_of_ne huv with h | h
    · rw [canonPair_of_le (le_of_lt h)] at hcan
      obtain ⟨rfl, rfl⟩ : u = x ∧ v = y := by
        simpa [Prod.ext_iff] using hcan
      exact mem_brutePairs.2 ⟨h, hv, hcl⟩
    · rw [canonPair_swap h] at hcan
      obtain ⟨rfl, rfl⟩ : v = x ∧ u = y := by
        simpa [Prod.ext_iff] using hcan
      refine mem_brutePairs.2 ⟨h, hu, ?_⟩
      rw [closeB_symm]
      exact hcl
  · intro hq
    obtain ⟨hxy, hy, hcl⟩ := mem_brutePairs.1 hq
    obtain ⟨q', hq', hcan⟩ := connect_complete hW hH hin hxy hy hcl
    exact List.mem_map.2 ⟨q', hq', hcan⟩

/-- C1 witness. -/
theorem spatialHash_equiv_bruteforce_witness :
    ((connectPairs 100 100
          [⟨10, 10, 0, 0, 0, 0, 1, 1, 0⟩, ⟨50, 10, 0, 0, 0, 0, 1, 1, 0⟩,
            ⟨95, 95, 0, 0, 0, 0, 1, 1, 0⟩]).map canonPair).Perm
        (brutePairs
          [⟨10, 10, 0, 0, 0, 0, 1, 1, 0⟩, ⟨50, 10, 0, 0, 0, 0, 1, 1, 0⟩,
            ⟨95, 95, 0, 0, 0, 0, 1, 1, 0⟩])
      ∧ (brutePairs
          [⟨10, 10, 0, 0, 0, 0, 1, 1, 0⟩, ⟨50, 10, 0, 0, 0, 0, 1, 1, 0⟩,
            ⟨95, 95, 0, 0, 0, 0, 1, 1, 0⟩]).Nodup :=
  spatialHash_equiv_bruteforce 100 100
    [⟨10, 10, 0, 0, 0, 0, 1, 1, 0⟩, ⟨50, 10, 0, 0, 0, 0, 1, 1, 0⟩,
      ⟨95, 95, 0, 0, 0, 0, 1, 1, 0⟩]
    (by norm_num) (by norm_num)
    (by
      intro p hp
      simp only [List.mem_cons, List.not_mem_nil, or_false] at hp
      rcases hp with rfl | rfl | rfl
      · exact ⟨by norm_num, by norm_num, by norm_num, by norm_num⟩
      · exact ⟨by norm_num, by norm_num, by norm_num, by norm_num⟩
      · exact ⟨by norm_num, by norm_num, by norm_num, by norm_num⟩)

/-- C6: the per-frame grid assigns every particle index to exactly one
bucket — the bucket of the key derived from floor(position / cellSize)
in each axis, and no other — and the key map (row, col) ↦
row · cols + col sends distinct in-range cells to distinct integer
keys. -/
theorem grid_unique_cell (W : ℚ) (ps : List Particle) (hW : 0 ≤ W) :
    (∀ i, i < ps.length →
        (i ∈ gridCell W ps (keyOf W (pAt ps i))
          ∧ ∀ k : ℤ, i ∈ gridCell W ps k → k = keyOf W (pAt ps i))) ∧
    (∀ p : Particle, keyOf W p = rowOf p * gridCols W + colOf p) ∧
    (∀ r c r' c' : ℤ, 0 ≤ c → c < gridCols W → 0 ≤ c' → c' < gridCols W →
        r * gridCols W + c = r' * gridCols W + c' → r = r' ∧ c = c') := by
  refine ⟨?_, fun p => rfl, ?_⟩
  · intro i hi
    exact ⟨mem_gridCell.2 ⟨hi, rfl⟩,
      fun k hk => ((mem_gridCell.1 hk).2).symm⟩
  · intro r c r' c' h0 hlt h0' hlt'
    exact key_inj (gridCols_pos hW) h0 hlt h0' hlt'

/-- C6 witness. -/
theorem grid_unique_cell_witness :
    0 ∈ gridCell 800 [⟨10, 20, 0, 0, 0, 0, 1, 1, 0⟩]
      (keyOf 800 (pAt [⟨10, 20, 0, 0, 0, 0, 1, 1, 0⟩] 0)) :=
  ((grid_unique_cell 800 [⟨10, 20, 0, 0, 0, 0, 1, 1, 0⟩]
    (by norm_num)).1 0 (by norm_num)).1

/-- C9: for in-bounds positions, a pair of particles is drawn by
connectParticles exactly when its distance d (the exact square root s
of the squared distance) is strictly below the connection distance, and
the line's opacity is lineAlpha s = 1 - s / connectionDistance; at
distance 50 with threshold 120 the opacity is 7/12 ≈ 0.583. -/
theorem connection_opacity (W H : ℚ) (ps : List Particle) (x y : ℕ)
    (s : ℚ) (hW : 0 ≤ W) (hH : 0 ≤ H) (hin : ∀ p ∈ ps, inBounds W H p)
    (hxy : x < y) (hy : y < ps.length) (hs0 : 0 ≤ s)
    (hs : s * s
        = ((pAt ps x).x - (pAt ps y).x) * ((pAt ps x).x - (pAt ps y).x)
          + ((pAt ps x).y - (pAt ps y).y) * ((pAt ps x).y - (pAt ps y).y)) :
    ((x, y) ∈ (connectPairs W H ps).map canonPair ↔ s < connectionDistance)
      ∧ lineAlpha s = 1 - s / connectionDistance
      ∧ lineAlpha 50 = 7/12 := by
  refine ⟨?_, rfl, by norm_num [lineAlpha, connectionDistance]⟩
  have hiff : closeB ps x y = true ↔ s < connectionDistance := by
    rw [closeB_iff, ← hs]
    unfold maxDistSq connectionDistance
    constructor
    · intro h
      nlinarith
    · intro h
      nlinarith
  constructor
  · intro hq
    obtain ⟨q', hq', hcan⟩ := List.mem_map.1 hq
    obtain ⟨u, v, rfl, huv, hu, hv, hcl⟩ := connect_sound hW hq'
    rcases lt_or_gt_of_ne huv with h | h
    · rw [canonPair_of_le (le_of_lt h)] at hcan
      obtain ⟨rfl, rfl⟩ : u = x ∧ v = y := by
        simpa [Prod.ext_iff] using hcan
      exact hiff.1 hcl
    · rw [canonPair_swap h] at hcan
      obtain ⟨rfl, rfl⟩ : v = x ∧ u = y := by
        simpa [Prod.ext_iff] using hcan
      refine hiff.1 ?_
      rw [closeB_symm]
      exact hcl
  · intro h
    obtain ⟨q', hq', hcan⟩ := connect_complete hW hH hin hxy hy (hiff.2 h)
    exact List.mem_map.2 ⟨q', hq', hcan⟩

/-- C9 witness: the spec's scenario — particles at (100,100) and
(150,100), threshold 120, distance 50. -/
theorem connection_opacity_witness :
    ((0, 1) ∈ (connectPairs 800 600
          [⟨100, 100, 0, 0, 0, 0, 1, 1, 0⟩,
            ⟨150, 100, 0, 0, 0, 0, 1, 1, 0⟩]).map canonPair
        ↔ (50 : ℚ) < connectionDistance)
      ∧ lineAlpha 50 = 1 - 50 / connectionDistance
      ∧ lineAlpha 50 = 7/12 :=
  connection_opacity 800 600
    [⟨100, 100, 0, 0, 0, 0, 1, 1, 0⟩, ⟨150, 100, 0, 0, 0, 0, 1, 1, 0⟩]
    0 1 50 (by norm_num) (by norm_num)
    (by
      intro p hp
      simp only [List.mem_cons, List.not_mem_nil, or_false] at hp
      rcases hp with rfl | rfl
      · exact ⟨by norm_num, by norm_num, by norm_num, by norm_num⟩
      · exact ⟨by norm_num, by norm_num, by norm_num, by norm_num⟩)
    (by norm_num) (by norm_num) (by norm_num)
    (by norm_num [pAt, List.getD_cons_zero, List.getD_cons_succ])

/-- C10 witness. -/
theorem repel_guard_no_force_at_pointer_witness :
    Particle.update 10 10 0 ⟨5, 5, true⟩ 0 ⟨5, 5, 1, 1, 0, 0, 1, 1, 0⟩
      = Particle.update 10 10 0 ⟨5, 5, false⟩ 0 ⟨5, 5, 1, 1, 0, 0, 1, 1, 0⟩ :=
  (repel_guard_no_force_at_pointer 10 10 0 0 ⟨5, 5, true⟩
    ⟨5, 5, 1, 1, 0, 0, 1, 1, 0⟩ rfl rfl (le_refl 0) (by norm_num)).1

end Constellation
